import Mathlib

/-!
Verification of the checksummed base32 identifier codec of this repository.

The repository ships the test file `rts/motoko-rts-tests/src/crc32.rs`, which
exercises `base32_of_checksummed_blob` (here `encodeChecksummed`) and
`base32_to_blob` (here `decodePlain`).  The implementations themselves live in
`motoko_rts::principal_id` and `motoko_rts::utf8`/crc32 modules that are not
part of the sources at hand, so every operation below is modelled from the
specification and validated against the concrete vectors of the test file.

Bytes and text are modelled as `List Nat`, each element an octet / ASCII code.
-/

/-- Modelled from the spec: one step of the reflected CRC-32 shift, polynomial
`0xEDB88320` (missing source: the CRC32 implementation behind
`base32_of_checksummed_blob` in `motoko_rts::principal_id`). -/
def crcStep (c : Nat) : Nat :=
  if c % 2 = 1 then (c / 2) ^^^ 0xEDB88320 else c / 2

/-- Modelled from the spec: entry `i` of the 256-entry CRC-32 lookup table,
obtained by running the reflected shift eight times on `i`. -/
def crcTable (i : Nat) : Nat := crcStep^[8] i

/-- Modelled from the spec: table-driven per-byte CRC-32 update. -/
def crcUpdate (c byte : Nat) : Nat :=
  crcTable ((c ^^^ byte) % 256) ^^^ (c / 256)

/-- Modelled from the spec: `checksum`, the table-driven CRC-32 (initial value
`0xFFFFFFFF`, final XOR `0xFFFFFFFF`). -/
def checksum (b : List Nat) : Nat :=
  (b.foldl crcUpdate 0xFFFFFFFF) ^^^ 0xFFFFFFFF

/-- Modelled from the spec: bit-at-a-time reference CRC-32 update, processing
the xored-in byte with eight reflected shift steps and no lookup table. -/
def crcUpdateBitwise (c byte : Nat) : Nat := crcStep^[8] (c ^^^ byte)

/-- Modelled from the spec: the reference (tableless) CRC-32, used to check
that the table-driven `checksum` implements the standard algorithm. -/
def crcBitwise (b : List Nat) : Nat :=
  (b.foldl crcUpdateBitwise 0xFFFFFFFF) ^^^ 0xFFFFFFFF

/-- Modelled from the spec: the big-endian 4-byte serialization of
`checksum b`. -/
def checksumBytes (b : List Nat) : List Nat :=
  [checksum b / 2 ^ 24 % 256, checksum b / 2 ^ 16 % 256,
   checksum b / 2 ^ 8 % 256, checksum b % 256]

/-- Modelled from the spec: the RFC 4648 base32 alphabet symbol (ASCII code)
at index `v`: `A`–`Z` for 0–25, then `2`–`7` for 26–31. -/
def symOfVal (v : Nat) : Nat :=
  if v < 26 then 65 + v else 50 + (v - 26)

/-- Modelled from the spec: inverse alphabet lookup on an (upper-case) ASCII
code; `none` when the character is not an alphabet member. -/
def valOfSym (c : Nat) : Option Nat :=
  if 65 ≤ c ∧ c ≤ 90 then some (c - 65)
  else if 50 ≤ c ∧ c ≤ 55 then some (c - 50 + 26)
  else none

/-- The eight bits of a byte, most significant first. -/
def byteBits (x : Nat) : List Bool :=
  [x.testBit 7, x.testBit 6, x.testBit 5, x.testBit 4,
   x.testBit 3, x.testBit 2, x.testBit 1, x.testBit 0]

/-- The five bits of a 5-bit group value, most significant first. -/
def valBits (v : Nat) : List Bool :=
  [v.testBit 4, v.testBit 3, v.testBit 2, v.testBit 1, v.testBit 0]

/-- Modelled from the spec: the input byte sequence as a contiguous bitstream,
most significant bit of each byte first. -/
def toBits (b : List Nat) : List Bool := b.flatMap byteBits

/-- A bitstream (most significant bit first) read back as a number. -/
def bitsToNat (bs : List Bool) : Nat :=
  bs.foldl (fun a b => 2 * a + (if b then 1 else 0)) 0

/-- Modelled from the spec: partition a bitstream into consecutive 5-bit
groups, right-padding the final short group with zero bits. -/
def chunk5 : List Bool → List (List Bool)
  | [] => []
  | a :: b :: c :: d :: e :: rest => [a, b, c, d, e] :: chunk5 rest
  | [a] => [[a, false, false, false, false]]
  | [a, b] => [[a, b, false, false, false]]
  | [a, b, c] => [[a, b, c, false, false]]
  | [a, b, c, d] => [[a, b, c, d, false]]

/-- Modelled from the spec: emit full bytes from the front of a bitstream,
discarding (without validation) trailing bits that do not complete a byte. -/
def bitsToBytes : List Bool → List Nat
  | b0 :: b1 :: b2 :: b3 :: b4 :: b5 :: b6 :: b7 :: rest =>
      bitsToNat [b0, b1, b2, b3, b4, b5, b6, b7] :: bitsToBytes rest
  | _ => []

/-- Modelled from the spec: `encodePlain`, the unpadded upper-case base32
encoder (`base32_of_blob` behind `base32_of_checksummed_blob`). -/
def encodePlain (b : List Nat) : List Nat :=
  (chunk5 (toBits b)).map (fun g => symOfVal (bitsToNat g))

/-- Modelled from the spec: `encodeChecksummed`
(`base32_of_checksummed_blob`): prepend the big-endian checksum bytes and
base32-encode the concatenation. -/
def encodeChecksummed (b : List Nat) : List Nat :=
  encodePlain (checksumBytes b ++ b)

/-- Upper-case an ASCII code (`a`–`z` map to `A`–`Z`, all else unchanged). -/
def toUpperChar (c : Nat) : Nat :=
  if 97 ≤ c ∧ c ≤ 122 then c - 32 else c

/-- Modelled from the spec: remove the decorative `-` separators (ASCII 45). -/
def stripDashes (s : List Nat) : List Nat := s.filter (fun c => c != 45)

/-- Modelled from the spec: decoder input normalization — strip `-`
separators, then upper-case. -/
def normalizeInput (s : List Nat) : List Nat := (stripDashes s).map toUpperChar

/-- Map every symbol of a normalized string to its 5-bit value, failing if
any character is not an alphabet member. -/
def decodeSymbols : List Nat → Option (List Nat)
  | [] => some []
  | c :: cs =>
    match valOfSym c, decodeSymbols cs with
    | some v, some vs => some (v :: vs)
    | _, _ => none

/-- The single error kind of the codec. -/
inductive DecodeError where
  | InvalidCharacter
deriving DecidableEq

deriving instance DecidableEq for Except

/-- Modelled from the spec: `decodePlain` (`base32_to_blob`): normalize,
map symbols to 5-bit groups, concatenate the bits and emit full bytes. -/
def decodePlain (s : List Nat) : Except DecodeError (List Nat) :=
  match decodeSymbols (normalizeInput s) with
  | some vs => Except.ok (bitsToBytes (vs.flatMap valBits))
  | none => Except.error DecodeError.InvalidCharacter

/-! ### Small evaluated facts about bits and the alphabet -/

set_option maxRecDepth 4000 in
/-- Reading back the eight bits of a byte recovers the byte. -/
theorem bitsToNat_byteBits : ∀ x < 256, bitsToNat (byteBits x) = x := by decide

/-- A 5-bit group round-trips through `bitsToNat`/`valBits`, and its value
is below 32. -/
theorem valBits_bitsToNat (a b c d e : Bool) :
    valBits (bitsToNat [a, b, c, d, e]) = [a, b, c, d, e] ∧
      bitsToNat [a, b, c, d, e] < 32 := by
  revert a b c d e; decide

/-- Alphabet symbols are not `-`, are already upper-case, invert correctly,
and are not the padding character `=`. -/
theorem symOfVal_props : ∀ v < 32, symOfVal v ≠ 45 ∧
    toUpperChar (symOfVal v) = symOfVal v ∧
    valOfSym (symOfVal v) = some v ∧ symOfVal v ≠ 61 := by decide

/-- A list of length five is literally a five-element list. -/
theorem length_five_shape (g : List Bool) (h : g.length = 5) :
    ∃ a b c d e, g = [a, b, c, d, e] := by
  rcases g with _ | ⟨a, g⟩; · simp at h
  rcases g with _ | ⟨b, g⟩; · simp at h
  rcases g with _ | ⟨c, g⟩; · simp at h
  rcases g with _ | ⟨d, g⟩; · simp at h
  rcases g with _ | ⟨e, g⟩; · simp at h
  rcases g with _ | ⟨f, g⟩
  · exact ⟨a, b, c, d, e, rfl⟩
  · simp at h

/-! ### Structure of `chunk5` and `bitsToBytes` -/

/-- Every group produced by `chunk5` has exactly five bits. -/
theorem chunk5_five (bs : List Bool) : ∀ g ∈ chunk5 bs, g.length = 5 := by
  induction bs using chunk5.induct <;> simp_all [chunk5]

/-- Flattening the 5-bit groups returns the bitstream followed by at most
four padding zero bits. -/
theorem chunk5_flatten (bs : List Bool) :
    ∃ k, k ≤ 4 ∧ (chunk5 bs).flatten = bs ++ List.replicate k false := by
  induction bs using chunk5.induct with
  | case1 => exact ⟨0, by norm_num, rfl⟩
  | case2 a b c d e rest ih =>
    obtain ⟨k, hk, h⟩ := ih
    exact ⟨k, hk, by simp [chunk5, h]⟩
  | case3 a => exact ⟨4, by norm_num, rfl⟩
  | case4 a b => exact ⟨3, by norm_num, rfl⟩
  | case5 a b c => exact ⟨2, by norm_num, rfl⟩
  | case6 a b c d => exact ⟨1, by norm_num, rfl⟩

/-- The number of 5-bit groups is the length of the bitstream divided by
five, rounded up. -/
theorem chunk5_length (bs : List Bool) :
    (chunk5 bs).length = (bs.length + 4) / 5 := by
  induction bs using chunk5.induct <;> simp_all [chunk5] <;> omega

/-- Fewer than eight bits yield no byte. -/
theorem bitsToBytes_short : ∀ bs : List Bool, bs.length < 8 → bitsToBytes bs = []
  | [], _ => rfl
  | [_], _ => rfl
  | [_, _], _ => rfl
  | [_, _, _], _ => rfl
  | [_, _, _, _], _ => rfl
  | [_, _, _, _, _], _ => rfl
  | [_, _, _, _, _, _], _ => rfl
  | [_, _, _, _, _, _, _], _ => rfl
  | _ :: _ :: _ :: _ :: _ :: _ :: _ :: _ :: _, h => absurd h (by simp)

/-- `bitsToBytes` emits one byte for every eight bits. -/
theorem bitsToBytes_length (bs : List Bool) :
    (bitsToBytes bs).length = bs.length / 8 := by
  induction bs using bitsToBytes.induct with
  | case1 b0 b1 b2 b3 b4 b5 b6 b7 rest ih =>
    simp only [bitsToBytes, List.length_cons, ih]
    omega
  | case2 t hno =>
    have hshort : t.length < 8 := by
      rcases t with _ | ⟨a, t⟩; · simp
      rcases t with _ | ⟨b, t⟩; · simp
      rcases t with _ | ⟨c, t⟩; · simp
      rcases t with _ | ⟨d, t⟩; · simp
      rcases t with _ | ⟨e, t⟩; · simp
      rcases t with _ | ⟨f, t⟩; · simp
      rcases t with _ | ⟨g, t⟩; · simp
      rcases t with _ | ⟨h8, t⟩; · simp
      exact absurd rfl (hno a b c d e f g h8 t)
    rw [bitsToBytes_short t hshort]
    simp [Nat.div_eq_of_lt hshort]

/-- Reassembling bytes from their bitstream, with fewer than eight junk bits
appended, recovers exactly the bytes. -/
theorem bitsToBytes_toBits_append (b : List Nat) (rest : List Bool)
    (hb : ∀ x ∈ b, x < 256) (hr : rest.length < 8) :
    bitsToBytes (toBits b ++ rest) = b := by
  induction b with
  | nil => simpa [toBits] using bitsToBytes_short rest hr
  | cons x b ih =>
    have hx : x < 256 := hb x (by simp)
    have hbs : ∀ y ∈ b, y < 256 := fun y hy => hb y (by simp [hy])
    have hih := ih hbs
    simp only [toBits, List.flatMap_cons, List.append_assoc] at hih ⊢
    simp only [byteBits, List.cons_append, List.nil_append]
    simp only [bitsToBytes]
    rw [show bitsToNat [x.testBit 7, x.testBit 6, x.testBit 5, x.testBit 4,
          x.testBit 3, x.testBit 2, x.testBit 1, x.testBit 0] = x from
        bitsToNat_byteBits x hx]
    rw [hih]

/-! ### `decodeSymbols` -/

/-- `decodeSymbols` fails exactly when some symbol is outside the alphabet. -/
theorem decodeSymbols_eq_none (s : List Nat) :
    decodeSymbols s = none ↔ ∃ c ∈ s, valOfSym c = none := by
  induction s with
  | nil => simp [decodeSymbols]
  | cons c cs ih =>
    simp only [decodeSymbols]
    cases hc : valOfSym c with
    | none =>
      simp only [List.mem_cons]
      exact ⟨fun _ => ⟨c, Or.inl rfl, hc⟩, fun _ => trivial⟩
    | some v =>
      cases hcs : decodeSymbols cs with
      | none =>
        obtain ⟨x, hx, hnone⟩ := ih.mp hcs
        simp only [List.mem_cons]
        exact ⟨fun _ => ⟨x, Or.inr hx, hnone⟩, fun _ => trivial⟩
      | some vs =>
        simp only [List.mem_cons]
        constructor
        · intro h; exact absurd h (by simp)
        · rintro ⟨x, hx | hx, hnone⟩
          · subst hx; rw [hc] at hnone; cases hnone
          · exact absurd (ih.mpr ⟨x, hx, hnone⟩) (by simp [hcs])

/-- `decodeSymbols` succeeds on mapped symbols that all invert. -/
theorem decodeSymbols_map_some {α : Type} (l : List α) (enc : α → Nat)
    (val : α → Nat) (h : ∀ x ∈ l, valOfSym (enc x) = some (val x)) :
    decodeSymbols (l.map enc) = some (l.map val) := by
  induction l with
  | nil => rfl
  | cons x l ih =>
    have hx := h x (by simp)
    have hl := ih (fun y hy => h y (by simp [hy]))
    simp [decodeSymbols, hx, hl]

/-- A successful `decodeSymbols` yields one 5-bit value per symbol. -/
theorem decodeSymbols_length :
    ∀ (s : List Nat) (vs : List Nat), decodeSymbols s = some vs →
      vs.length = s.length := by
  intro s
  induction s with
  | nil => intro vs h; cases h; rfl
  | cons c cs ih =>
    intro vs h
    simp only [decodeSymbols] at h
    cases hc : valOfSym c with
    | none => rw [hc] at h; exact absurd h (by simp)
    | some v =>
      rw [hc] at h
      cases hcs : decodeSymbols cs with
      | none => rw [hcs] at h; exact absurd h (by simp)
      | some ws =>
        rw [hcs] at h
        cases h
        simp [ih ws hcs]

/-- Concatenating the bits of the values of length-5 groups flattens the
groups themselves. -/
theorem flatMap_valBits_chunks (l : List (List Bool))
    (h : ∀ g ∈ l, g.length = 5) :
    (l.map bitsToNat).flatMap valBits = l.flatten := by
  induction l with
  | nil => rfl
  | cons g l ih =>
    obtain ⟨a, b, c, d, e, rfl⟩ := length_five_shape g (h g (by simp))
    have := (valBits_bitsToNat a b c d e).1
    simp only [List.map_cons, List.flatMap_cons, List.flatten_cons, this]
    rw [ih (fun g hg => h g (by simp [hg]))]

/-! ### Normalization -/

/-- Upper-casing sends only `a`–`z` anywhere; `-` is untouched. -/
theorem toUpperChar_eq_45 (c : Nat) : toUpperChar c = 45 ↔ c = 45 := by
  unfold toUpperChar; split <;> omega

/-- Upper-casing is idempotent. -/
theorem toUpperChar_idem (c : Nat) :
    toUpperChar (toUpperChar c) = toUpperChar c := by
  unfold toUpperChar
  split <;> rename_i h
  · rw [if_neg (by omega)]
  · rfl

/-- Stripping dashes commutes with upper-casing. -/
theorem stripDashes_map_upper (s : List Nat) :
    stripDashes (s.map toUpperChar) = (stripDashes s).map toUpperChar := by
  unfold stripDashes
  rw [List.filter_map]
  refine congrArg _ (List.filter_congr fun c _ => ?_)
  simp only [Function.comp_apply]
  cases hb : (c != 45)
  · have hc : c = 45 := by simpa using hb
    subst hc
    norm_num [toUpperChar]
  · have hne : c ≠ 45 := by simpa using hb
    have hup : toUpperChar c ≠ 45 := fun h => hne ((toUpperChar_eq_45 c).mp h)
    simpa using hup

/-- Normalization is insensitive to prior upper-casing. -/
theorem normalizeInput_upper (s : List Nat) :
    normalizeInput (s.map toUpperChar) = normalizeInput s := by
  unfold normalizeInput
  rw [stripDashes_map_upper, List.map_map]
  exact List.map_congr_left fun c _ => toUpperChar_idem c

/-- Normalization is insensitive to prior dash removal. -/
theorem normalizeInput_strip (s : List Nat) :
    normalizeInput (stripDashes s) = normalizeInput s := by
  unfold normalizeInput stripDashes
  rw [List.filter_filter]
  refine congrArg _ (List.filter_congr fun c _ => ?_)
  cases h : c != 45 <;> simp [h]

/-- `decodePlain` only looks at the normalized input. -/
theorem decodePlain_congr {s t : List Nat}
    (h : normalizeInput s = normalizeInput t) : decodePlain s = decodePlain t := by
  unfold decodePlain
  rw [h]

/-! ### The encoder's output alphabet -/

/-- Every character of `encodePlain b` is `symOfVal v` for some `v < 32`. -/
theorem mem_encodePlain (b : List Nat) (c : Nat) (h : c ∈ encodePlain b) :
    ∃ v < 32, c = symOfVal v := by
  unfold encodePlain at h
  obtain ⟨g, hg, rfl⟩ := List.mem_map.mp h
  obtain ⟨x, y, z, w, u, rfl⟩ := length_five_shape g (chunk5_five _ g hg)
  exact ⟨bitsToNat [x, y, z, w, u], (valBits_bitsToNat x y z w u).2, rfl⟩

/-- The encoder's output is already normalized. -/
theorem normalizeInput_encodePlain (b : List Nat) :
    normalizeInput (encodePlain b) = encodePlain b := by
  have h1 : ∀ c ∈ encodePlain b, (c != 45) = true := by
    intro c hc
    obtain ⟨v, hv, rfl⟩ := mem_encodePlain b c hc
    simpa using (symOfVal_props v hv).1
  have h2 : List.map toUpperChar (encodePlain b) = List.map id (encodePlain b) := by
    refine List.map_congr_left fun c hc => ?_
    obtain ⟨v, hv, rfl⟩ := mem_encodePlain b c hc
    exact (symOfVal_props v hv).2.1
  unfold normalizeInput stripDashes
  rw [List.filter_eq_self.mpr h1, h2, List.map_id]

/-! ### The round trip of the plain pair -/

/-- Decoding the plain encoding of a byte sequence returns the sequence. -/
theorem decode_encode_plain (b : List Nat) (hb : ∀ x ∈ b, x < 256) :
    decodePlain (encodePlain b) = Except.ok b := by
  have hdec : decodeSymbols (encodePlain b) =
      some ((chunk5 (toBits b)).map bitsToNat) := by
    refine decodeSymbols_map_some (chunk5 (toBits b))
      (fun g => symOfVal (bitsToNat g)) bitsToNat fun g hg => ?_
    obtain ⟨x, y, z, w, u, rfl⟩ :=
      length_five_shape g (chunk5_five (toBits b) g hg)
    exact (symOfVal_props _ (valBits_bitsToNat x y z w u).2).2.2.1
  obtain ⟨k, hk, hj⟩ := chunk5_flatten (toBits b)
  unfold decodePlain
  rw [normalizeInput_encodePlain, hdec]
  have hflat := flatMap_valBits_chunks (chunk5 (toBits b)) (chunk5_five (toBits b))
  show Except.ok (bitsToBytes ((List.map bitsToNat (chunk5 (toBits b))).flatMap valBits)) =
    Except.ok b
  rw [hflat, hj, bitsToBytes_toBits_append b _ hb (by simp; omega)]

/-! ### CRC-32: the lookup-table update is the bit-at-a-time update -/

/-- `crcStep` without the branch: shift right and conditionally xor in the
polynomial. -/
theorem crcStep_eq (z : Nat) :
    crcStep z = z / 2 ^^^ (if z % 2 = 1 then 0xEDB88320 else 0) := by
  unfold crcStep; split <;> simp

/-- Rearranging a xor of four terms. -/
theorem xor_shuffle (a b c d : Nat) :
    (a ^^^ b) ^^^ (c ^^^ d) = (a ^^^ c) ^^^ (b ^^^ d) := by
  apply Nat.eq_of_testBit_eq
  intro i
  simp only [Nat.testBit_xor]
  cases a.testBit i <;> cases b.testBit i <;>
    cases c.testBit i <;> cases d.testBit i <;> rfl

/-- `crcStep` is linear over xor (the CRC shift is GF(2)-linear). -/
theorem crcStep_xor (x y : Nat) :
    crcStep (x ^^^ y) = crcStep x ^^^ crcStep y := by
  rw [crcStep_eq, crcStep_eq, crcStep_eq, Nat.xor_div_two, xor_shuffle]
  congr 1
  rcases Nat.mod_two_eq_zero_or_one x with hx | hx <;>
    rcases Nat.mod_two_eq_zero_or_one y with hy | hy <;>
      simp [Nat.xor_mod_two_eq_one, hx, hy] <;> omega

/-- Iterated `crcStep` is linear over xor. -/
theorem iterate_crcStep_xor (n x y : Nat) :
    crcStep^[n] (x ^^^ y) = crcStep^[n] x ^^^ crcStep^[n] y := by
  induction n generalizing x y with
  | zero => rfl
  | succ n ih =>
    rw [Function.iterate_succ_apply, Function.iterate_succ_apply,
      Function.iterate_succ_apply, crcStep_xor, ih]

/-- `crcStep` halves an even input. -/
theorem crcStep_double (b : Nat) : crcStep (2 * b) = b := by
  unfold crcStep
  rw [if_neg (by omega)]
  omega

/-- `n` iterations of `crcStep` shift away `n` low zero bits. -/
theorem iterate_crcStep_two_pow (n b : Nat) : crcStep^[n] (2 ^ n * b) = b := by
  induction n generalizing b with
  | zero => simp
  | succ n ih =>
    have h : 2 ^ (n + 1) * b = 2 * (2 ^ n * b) := by ring
    rw [h, Function.iterate_succ_apply, crcStep_double, ih]

/-- Splitting a number at bit 8 as a xor. -/
theorem xor_split_256 (x : Nat) : 256 * (x / 256) ^^^ x % 256 = x := by
  have h256 : (256 : Nat) = 2 ^ 8 := by norm_num
  apply Nat.eq_of_testBit_eq
  intro i
  rw [show 256 * (x / 256) = (x / 256) <<< 8 by rw [Nat.shiftLeft_eq]; ring,
    show x / 256 = x >>> 8 by rw [Nat.shiftRight_eq_div_pow, h256]]
  simp only [Nat.testBit_xor, Nat.testBit_shiftLeft, Nat.testBit_shiftRight, h256,
    Nat.testBit_mod_two_pow]
  by_cases h : i < 8
  · simp [h, Nat.not_le.mpr h]
  · have h8 : 8 + (i - 8) = i := by omega
    simp [h, Nat.le_of_not_lt h, h8]

/-- Eight `crcStep`s on an arbitrary accumulator are a table lookup on the
low byte xored with the shifted-out high bits. -/
theorem iterate_eight_eq_table (x : Nat) :
    crcStep^[8] x = crcTable (x % 256) ^^^ x / 256 := by
  conv_lhs => rw [← xor_split_256 x]
  rw [iterate_crcStep_xor, show (256 : Nat) * (x / 256) = 2 ^ 8 * (x / 256) by norm_num,
    iterate_crcStep_two_pow, Nat.xor_comm]
  rfl

/-- Xoring in a byte does not change the bits above the low eight. -/
theorem xor_byte_div_256 (c byte : Nat) (h : byte < 256) :
    (c ^^^ byte) / 256 = c / 256 := by
  have h256 : (256 : Nat) = 2 ^ 8 := by norm_num
  rw [h256, ← Nat.shiftRight_eq_div_pow, ← Nat.shiftRight_eq_div_pow]
  apply Nat.eq_of_testBit_eq
  intro i
  simp only [Nat.testBit_shiftRight, Nat.testBit_xor]
  rw [Nat.testBit_lt_two_pow (lt_of_lt_of_le h (by
    rw [h256]; exact Nat.pow_le_pow_right (by norm_num) (by omega)))]
  simp

/-- The table-driven per-byte update agrees with the bit-at-a-time update. -/
theorem crcUpdate_eq_bitwise (c byte : Nat) (h : byte < 256) :
    crcUpdate c byte = crcUpdateBitwise c byte := by
  unfold crcUpdate crcUpdateBitwise
  rw [iterate_eight_eq_table, xor_byte_div_256 c byte h]

/-- The two CRC folds agree on byte sequences. -/
theorem foldl_crc_eq (b : List Nat) (hb : ∀ x ∈ b, x < 256) :
    ∀ a : Nat, b.foldl crcUpdate a = b.foldl crcUpdateBitwise a := by
  induction b with
  | nil => intro a; rfl
  | cons x b ih =>
    intro a
    have hx : x < 256 := hb x (by simp)
    simp only [List.foldl_cons, crcUpdate_eq_bitwise a x hx]
    exact ih (fun y hy => hb y (by simp [hy])) _

/-- The table-driven checksum is the standard bit-at-a-time CRC-32. -/
theorem checksum_eq_bitwise (b : List Nat) (hb : ∀ x ∈ b, x < 256) :
    checksum b = crcBitwise b := by
  unfold checksum crcBitwise
  rw [foldl_crc_eq b hb]

/-! ### Error path and lengths -/

/-- A character maps to no 5-bit value (after upper-casing) exactly when it
is not a case-insensitive member of the alphabet `A`–`Z`, `2`–`7`. -/
theorem valOfSym_upper_none (c : Nat) :
    valOfSym (toUpperChar c) = none ↔
      ¬((65 ≤ c ∧ c ≤ 90) ∨ (97 ≤ c ∧ c ≤ 122) ∨ (50 ≤ c ∧ c ≤ 55)) := by
  unfold toUpperChar valOfSym
  split <;> rename_i h1 <;> split <;> rename_i h2 <;>
    first
      | (simp only [reduceCtorEq, false_iff, not_not]; omega)
      | (split <;> rename_i h3 <;>
          first
            | (simp only [reduceCtorEq, false_iff, not_not]; omega)
            | (simp only [true_iff]; omega))

/-- Membership in the normalized input. -/
theorem mem_normalizeInput (s : List Nat) (c : Nat) :
    c ∈ normalizeInput s ↔ ∃ x ∈ s, x ≠ 45 ∧ c = toUpperChar x := by
  unfold normalizeInput stripDashes
  simp only [List.mem_map, List.mem_filter, bne_iff_ne, ne_eq]
  constructor
  · rintro ⟨x, ⟨hx, hne⟩, rfl⟩
    exact ⟨x, hx, hne, rfl⟩
  · rintro ⟨x, hx, hne, rfl⟩
    exact ⟨x, ⟨hx, hne⟩, rfl⟩

/-- `decodePlain` reports `InvalidCharacter` exactly when the raw input has a
non-dash character outside the alphabet (case-insensitively). -/
theorem decodePlain_error_iff (s : List Nat) :
    decodePlain s = Except.error DecodeError.InvalidCharacter ↔
      ∃ c ∈ s, c ≠ 45 ∧ valOfSym (toUpperChar c) = none := by
  unfold decodePlain
  constructor
  · intro h
    cases hd : decodeSymbols (normalizeInput s) with
    | some vs => rw [hd] at h; exact absurd h (by simp)
    | none =>
      obtain ⟨c, hc, hnone⟩ := (decodeSymbols_eq_none _).mp hd
      obtain ⟨x, hx, hne, rfl⟩ := (mem_normalizeInput s c).mp hc
      exact ⟨x, hx, hne, hnone⟩
  · rintro ⟨x, hx, hne, hnone⟩
    have hd : decodeSymbols (normalizeInput s) = none :=
      (decodeSymbols_eq_none _).mpr
        ⟨toUpperChar x, (mem_normalizeInput s _).mpr ⟨x, hx, hne, rfl⟩, hnone⟩
    rw [hd]

/-- If every non-dash character is an alphabet member, decoding succeeds. -/
theorem decodePlain_ok_of_alphabet (s : List Nat)
    (h : ∀ c ∈ s, c ≠ 45 → valOfSym (toUpperChar c) ≠ none) :
    ∃ b, decodePlain s = Except.ok b := by
  unfold decodePlain
  cases hd : decodeSymbols (normalizeInput s) with
  | some vs => exact ⟨_, rfl⟩
  | none =>
    obtain ⟨c, hc, hnone⟩ := (decodeSymbols_eq_none _).mp hd
    obtain ⟨x, hx, hne, rfl⟩ := (mem_normalizeInput s c).mp hc
    exact absurd hnone (h x hx hne)

/-- Each 5-bit value contributes five bits. -/
theorem flatMap_valBits_length (vs : List Nat) :
    (vs.flatMap valBits).length = 5 * vs.length := by
  induction vs with
  | nil => rfl
  | cons v vs ih =>
    simp only [List.flatMap_cons, List.length_append, List.length_cons, ih, valBits]
    simp [List.length_cons]
    omega

/-- The bitstream of a byte sequence has eight bits per byte. -/
theorem toBits_length (b : List Nat) : (toBits b).length = 8 * b.length := by
  unfold toBits
  induction b with
  | nil => rfl
  | cons x b ih =>
    simp only [List.flatMap_cons, List.length_append, ih, byteBits, List.length_cons]
    simp
    omega

/-- The length of a successfully decoded blob. -/
theorem decodePlain_ok_length (s b : List Nat) (h : decodePlain s = Except.ok b) :
    b.length = ((s.filter (fun c => c != 45)).length * 5) / 8 := by
  unfold decodePlain at h
  cases hd : decodeSymbols (normalizeInput s) with
  | none => rw [hd] at h; exact absurd h (by simp)
  | some vs =>
    rw [hd] at h
    have hb : bitsToBytes (vs.flatMap valBits) = b := by
      simpa using h
    have hlen : vs.length = (normalizeInput s).length := decodeSymbols_length _ _ hd
    have hnorm : (normalizeInput s).length = (s.filter (fun c => c != 45)).length := by
      unfold normalizeInput stripDashes
      simp
    rw [← hb, bitsToBytes_length, flatMap_valBits_length, hlen, hnorm]
    omega

/-- Length of the plain encoding. -/
theorem encodePlain_length (b : List Nat) :
    (encodePlain b).length = (b.length * 8 + 4) / 5 := by
  unfold encodePlain
  rw [List.length_map, chunk5_length, toBits_length]
  omega

/-- The padding character `=` (61) never occurs in the output. -/
theorem encodePlain_no_padding (b : List Nat) : (encodePlain b).count 61 = 0 :=
  List.count_eq_zero.mpr fun h => by
    obtain ⟨v, hv, he⟩ := mem_encodePlain b 61 h
    exact (symOfVal_props v hv).2.2.2 he.symm

/-! ## The claims -/

/-- C1: for every byte sequence `b`, decoding the plain base32 encoding of
`b` returns `b` exactly: `decodePlain (encodePlain b) = ok b`. -/
theorem claim_C1_plain_roundtrip (b : List Nat) (hb : ∀ x ∈ b, x < 256) :
    decodePlain (encodePlain b) = Except.ok b :=
  decode_encode_plain b hb

/-- Witness for C1 at the concrete byte sequence `[1, 2, 3]`. -/
theorem claim_C1_witness : decodePlain (encodePlain [1, 2, 3]) = Except.ok [1, 2, 3] :=
  claim_C1_plain_roundtrip [1, 2, 3] (by decide)

/-- C2: the checksummed encoder is the composition
`encodePlain (checksum_bytes b ++ b)`, the checksum serialized as four
big-endian bytes placed first. -/
theorem claim_C2_checksummed_is_composition (b : List Nat) :
    encodeChecksummed b =
      encodePlain ([checksum b / 2 ^ 24 % 256, checksum b / 2 ^ 16 % 256,
        checksum b / 2 ^ 8 % 256, checksum b % 256] ++ b) := rfl

set_option maxRecDepth 40000 in
/-- C3: the checksum is the standard CRC-32 (reflected polynomial
`0xEDB88320`, initial value `0xFFFFFFFF`, final XOR `0xFFFFFFFF`): the
table-driven `checksum` agrees with the tableless bit-at-a-time reference on
every byte sequence, and maps `"123456789"` to the canonical test value
`0xCBF43926`. -/
theorem claim_C3_checksum_is_standard_crc32 :
    checksum [49, 50, 51, 52, 53, 54, 55, 56, 57] = 0xCBF43926 ∧
      ∀ b : List Nat, (∀ x ∈ b, x < 256) → checksum b = crcBitwise b :=
  ⟨by rfl, fun b hb => checksum_eq_bitwise b hb⟩

/-- Witness for C3's quantified part at the concrete bytes `[0, 255, 7]`. -/
theorem claim_C3_witness : checksum [0, 255, 7] = crcBitwise [0, 255, 7] :=
  claim_C3_checksum_is_standard_crc32.2 [0, 255, 7] (by decide)

/-- C4: the plain encoding of `b` has exactly `ceil (8 * len b / 5)`
symbols (in `Nat`: `(len b * 8 + 4) / 5`), and the padding character `=`
(ASCII 61) never occurs in it. -/
theorem claim_C4_encode_length_no_padding (b : List Nat) :
    (encodePlain b).length = (b.length * 8 + 4) / 5 ∧
      (encodePlain b).count 61 = 0 :=
  ⟨encodePlain_length b, encodePlain_no_padding b⟩

/-- C5: `decodePlain` fails with `DecodeError.InvalidCharacter` if and only
if some character of the input other than the `-` separator is not a
case-insensitive member of the RFC 4648 alphabet (`A`–`Z`, `a`–`z`,
`2`–`7`). -/
theorem claim_C5_invalid_character_iff (s : List Nat) :
    decodePlain s = Except.error DecodeError.InvalidCharacter ↔
      ∃ c ∈ s, c ≠ 45 ∧
        ¬((65 ≤ c ∧ c ≤ 90) ∨ (97 ≤ c ∧ c ≤ 122) ∨ (50 ≤ c ∧ c ≤ 55)) := by
  rw [decodePlain_error_iff]
  exact exists_congr fun c => and_congr_right fun _ =>
    and_congr_right fun _ => valOfSym_upper_none c

/-- Witness for C5 at the concrete input `"$"` (ASCII 36). -/
theorem claim_C5_witness :
    decodePlain [36] = Except.error DecodeError.InvalidCharacter :=
  (claim_C5_invalid_character_iff [36]).mpr ⟨36, by decide, by decide, by decide⟩

/-- C6: decoding is insensitive to letter case and to `-` separators:
`decodePlain s = decodePlain (upper s) = decodePlain (s without dashes)`
(for every input, in particular every valid dash-grouped one). -/
theorem claim_C6_case_and_dash_insensitive (s : List Nat) :
    decodePlain (s.map toUpperChar) = decodePlain s ∧
      decodePlain (s.filter (fun c => c != 45)) = decodePlain s :=
  ⟨decodePlain_congr (normalizeInput_upper s),
   decodePlain_congr (normalizeInput_strip s)⟩

set_option maxRecDepth 40000 in
/-- C7: `encodeChecksummed "abcdefghijklmnop"` is exactly the 32-symbol
text `"SQ5MBE3BMJRWIZLGM5UGS2TLNRWW433Q"` (both as ASCII codes). -/
theorem claim_C7_checksummed_vector :
    encodeChecksummed
        [97, 98, 99, 100, 101, 102, 103, 104, 105, 106, 107, 108, 109, 110, 111, 112] =
      [83, 81, 53, 77, 66, 69, 51, 66, 77, 74, 82, 87, 73, 90, 76, 71,
       77, 53, 85, 71, 83, 50, 84, 76, 78, 82, 87, 87, 52, 51, 51, 81] := by decide

/-- C8: decoding never fails because of leftover trailing bits: whenever
every non-dash character is a case-insensitive alphabet member, decoding
succeeds (the trailing bits are discarded without validation). -/
theorem claim_C8_trailing_bits_leniency (s : List Nat)
    (h : ∀ c ∈ s, c ≠ 45 →
      ((65 ≤ c ∧ c ≤ 90) ∨ (97 ≤ c ∧ c ≤ 122) ∨ (50 ≤ c ∧ c ≤ 55))) :
    ∃ b, decodePlain s = Except.ok b :=
  decodePlain_ok_of_alphabet s fun c hc hne hnone =>
    (valOfSym_upper_none c).mp hnone (h c hc hne)

/-- Witness for C8 at `"AB"`: its ten bits end in the nonzero trailing pair
`01`, which is discarded, and decoding succeeds. -/
theorem claim_C8_witness : ∃ b, decodePlain [65, 66] = Except.ok b :=
  claim_C8_trailing_bits_leniency [65, 66] (by decide)

/-- C9: the empty string decodes to the empty blob and the empty blob
encodes to the empty string. -/
theorem claim_C9_empty_inputs :
    decodePlain [] = Except.ok [] ∧ encodePlain [] = [] :=
  ⟨rfl, rfl⟩

/-- C10: a successfully decoded blob has `floor (n * 5 / 8)` bytes, where
`n` counts the input characters left after removing `-` separators. -/
theorem claim_C10_decoded_length (s b : List Nat)
    (h : decodePlain s = Except.ok b) :
    b.length = ((s.filter (fun c => c != 45)).length * 5) / 8 :=
  decodePlain_ok_length s b h

set_option maxRecDepth 40000 in
/-- Witness for C10 at the dash-grouped input `"em77e-bvlzu-aq"` (14
characters, 12 symbols), whose decoding has `12 * 5 / 8 = 7` bytes. -/
theorem claim_C10_witness :
    ([0x23, 0x3f, 0xf2, 0x06, 0xab, 0xcd, 0x01] : List Nat).length =
      ((([101, 109, 55, 55, 101, 45, 98, 118, 108, 122, 117, 45, 97, 113] : List Nat).filter
        (fun c => c != 45)).length * 5) / 8 :=
  claim_C10_decoded_length
    [101, 109, 55, 55, 101, 45, 98, 118, 108, 122, 117, 45, 97, 113]
    [0x23, 0x3f, 0xf2, 0x06, 0xab, 0xcd, 0x01] (by decide)
